import Mathlib

/-!
Shallow embedding of `src/models/markov_chain.py` and
`src/models/sentence_generator.py`.

Numpy float64 matrices are modelled with exact rationals (`ℚ`): none of the
verified statements depends on rounding, only on the comparison and
arithmetic structure of the code.  Python exceptions are modelled with
`Except` / explicit result types.  The one source of randomness,
`np.random.multinomial(n=1, pvals)` followed by `np.argmax`, is a categorical
draw: it is modelled by inverse-CDF sampling on a uniform value `u ∈ [0,1)`
supplied by the caller; a traversal receives a stream `us : ℕ → ℚ` of such
values, one per draw.  Unbounded `while` loops receive explicit fuel; running
out of fuel is reported by a dedicated result, distinct from any Python
exception.
-/

namespace MarkovSpeech

/-- A numpy 2-d array of rationals: `m` rows, `n` columns, entries given by a
total function (entries outside the shape are irrelevant padding). -/
structure NpMatrix where
  m : ℕ
  n : ℕ
  entry : ℕ → ℕ → ℚ

/-- `A.sum(axis=0)[j]`: the sum of column `j` over the `m` rows. -/
def colSum (A : NpMatrix) (j : ℕ) : ℚ :=
  ((List.range A.m).map (fun i => A.entry i j)).sum

/-- numpy `allclose` default absolute tolerance `1e-08`. -/
def npAtol : ℚ := 1 / 100000000

/-- numpy `allclose` default relative tolerance `1e-05`. -/
def npRtol : ℚ := 1 / 100000

/-- The effective tolerance of `np.allclose(A.sum(axis=0), np.ones(n))` for a
single entry: `|s - 1| ≤ atol + rtol * |1|`. -/
def npTol : ℚ := npAtol + npRtol * 1

/-- `np.allclose(A.sum(axis=0), np.ones(n))` from `MarkovChain.__init__`:
every column sum is within `npTol` of 1. -/
def colsAllcloseOne (A : NpMatrix) : Bool :=
  (List.range A.n).all (fun j => decide (|colSum A j - 1| ≤ npTol))

/-- The Python errors the two modules can actually raise.
`notColumnStochastic` is the `ValueError` raised in `MarkovChain.__init__`;
`unknownLabel` is the `KeyError` of the `states_index_map` dict lookup in
`MarkovChain.transition`; `indexOut` is an `IndexError` from `self.states[i]`
(never reached on well-formed chains but part of the model for totality). -/
inductive MCErr where
  | notColumnStochastic : MCErr
  | unknownLabel : MCErr
  | indexOut : MCErr
deriving DecidableEq

/-- The state stored by a successfully constructed `MarkovChain`: the
transition matrix and the state-label list (`self.transition_matrix`,
`self.states`).  The index map is recomputed by `statesIndexMap` below. -/
structure MarkovChain (α : Type) where
  A : NpMatrix
  states : List α

/-- The Python dict comprehension
`{ state:index for state, index in zip(states, range(n)) }`, looked up at key
`x`: `zip` truncates to the shorter list, and a duplicate key keeps its
**last** index (later bindings overwrite earlier ones). -/
def statesIndexMap {α : Type} [DecidableEq α] (states : List α) (n : ℕ) (x : α) :
    Option ℕ :=
  (((states.zip (List.range n)).filter (fun p => decide (p.1 = x))).getLast?).map
    (fun p => p.2)

/-- `MarkovChain.__init__(A, states)` with an explicit label list.  The only
validation performed by the source is the column-stochasticity check; in
particular the matrix shape is never compared (`m, n = A.shape` merely
unpacks) and label uniqueness is never checked. -/
def mkMarkovChain {α : Type} [DecidableEq α] (A : NpMatrix) (states : List α) :
    Except MCErr (MarkovChain α) :=
  if colsAllcloseOne A then .ok ⟨A, states⟩ else .error .notColumnStochastic

/-- `MarkovChain.__init__(A)` with `states=None`: labels default to
`[i for i in range(n)]` where `n = A.shape[1]`. -/
def mkMarkovChainDefault (A : NpMatrix) : Except MCErr (MarkovChain ℕ) :=
  mkMarkovChain A (List.range A.n)

/-- Inverse-CDF categorical sampling: the index drawn by
`np.argmax(np.random.multinomial(n=1, pvals=ps))` when the underlying uniform
draw is `u`: the first index `i` with `ps[0] + ... + ps[i] > u`. -/
def sampleIdx (u : ℚ) : List ℚ → ℕ
  | [] => 0
  | p :: ps => if u < p then 0 else sampleIdx (u - p) ps + 1

/-- `MarkovChain.transition(state)`, with the uniform draw `u` made explicit:
look up the column index of `state` (Python `KeyError` when absent), draw an
index from that column of the matrix, and return the label at that index. -/
def MarkovChain.transition {α : Type} [DecidableEq α] (c : MarkovChain α)
    (u : ℚ) (state : α) : Except MCErr α :=
  match statesIndexMap c.states c.A.n state with
  | none => .error .unknownLabel
  | some j =>
    let col := (List.range c.A.m).map (fun i => c.A.entry i j)
    match c.states.get? (sampleIdx u col) with
    | some l => .ok l
    | none => .error .indexOut

/-- The `for i in range(N-1)` loop of `MarkovChain.walk`: perform `steps`
transitions, appending each visited label; `us k` is the uniform draw of the
`k`-th transition overall. -/
def MarkovChain.walkAux {α : Type} [DecidableEq α] (c : MarkovChain α)
    (us : ℕ → ℚ) : ℕ → ℕ → α → List α → Except MCErr (List α)
  | 0, _, _, visited => .ok visited
  | steps + 1, k, current, visited =>
    match c.transition (us k) current with
    | .error e => .error e
    | .ok nxt => walkAux c us steps (k + 1) nxt (visited ++ [nxt])

/-- `MarkovChain.walk(start, N)`: `start` followed by `N - 1` transition
results (for `N ≤ 1` the loop body never runs and the result is `[start]`). -/
def MarkovChain.walk {α : Type} [DecidableEq α] (c : MarkovChain α)
    (us : ℕ → ℚ) (start : α) (N : ℕ) : Except MCErr (List α) :=
  walkAux c us (N - 1) 0 start [start]

/-- Result of the fuelled `path` loop: a returned list, a Python exception, or
fuel exhaustion (the source loop simply has not terminated yet). -/
inductive PathRes (α : Type) where
  | ok (l : List α) : PathRes α
  | err (e : MCErr) : PathRes α
  | fuelOut : PathRes α
deriving DecidableEq

/-- The `while current_state != stop` loop of `MarkovChain.path`, with fuel
bounding the number of iterations. -/
def MarkovChain.pathAux {α : Type} [DecidableEq α] (c : MarkovChain α)
    (us : ℕ → ℚ) : ℕ → ℕ → α → α → List α → PathRes α
  | 0, _, current, stop, visited =>
    if current = stop then .ok visited else .fuelOut
  | fuel + 1, k, current, stop, visited =>
    if current = stop then .ok visited
    else
      match c.transition (us k) current with
      | .error e => .err e
      | .ok nxt => pathAux c us fuel (k + 1) nxt stop (visited ++ [nxt])

/-- `MarkovChain.path(start, stop)`: starting from `visited = [start]`,
transition until `stop` is produced, appending every visited label. -/
def MarkovChain.path {α : Type} [DecidableEq α] (c : MarkovChain α)
    (us : ℕ → ℚ) (fuel : ℕ) (start stop : α) : PathRes α :=
  pathAux c us fuel 0 start stop [start]

/-! ## sentence_generator.py

File reading and whitespace tokenization are out of scope (spec §6): the
corpus arrives as a list of sentences, each already split into its tokens. -/

/-- The `"$tart"` sentinel prepended to every sentence. -/
def tartLabel : String := "$tart"

/-- The `"$top"` sentinel appended to every sentence. -/
def topLabel : String := "$top"

/-- `SentenceGenerator.state_labels`: the distinct corpus tokens with
`"$tart"` inserted at position 0 and `"$top"` appended.  Python iterates a
`set` in an unspecified (hash-based) deterministic order; the embedding fixes
one deterministic enumeration of the distinct tokens (`List.dedup`, which
keeps the last occurrence).  Every verified statement is independent of this
enumeration choice. -/
def stateLabels (sentences : List (List String)) : List String :=
  tartLabel :: (sentences.flatten.dedup ++ [topLabel])

/-- A sentence with the sentinels attached:
`sentence_words.insert(0, "$tart"); sentence_words.append("$top")`. -/
def framed (toks : List String) : List String :=
  tartLabel :: (toks ++ [topLabel])

/-- The consecutive pairs `(sentence_words[i], sentence_words[i+1])` swept by
the inner counting loop. -/
def pairsOf (l : List String) : List (String × String) :=
  l.zip l.tail

/-- All consecutive pairs counted across the whole corpus. -/
def allPairs (sentences : List (List String)) : List (String × String) :=
  (sentences.map (fun s => pairsOf (framed s))).flatten

/-- Index of a word in the generator's `states_index_map`.  In the source
every looked-up word is a key of the dict; the `getD 0` default is dead
padding for totality. -/
def wordIdx (labels : List String) (w : String) : ℕ :=
  (statesIndexMap labels labels.length w).getD 0

/-- `self.transition_matrix[i, j] += 1` at `i = a`, `j = b`. -/
def bump (M : ℕ → ℕ → ℚ) (a b : ℕ) : ℕ → ℕ → ℚ :=
  fun i j => if i = a ∧ j = b then M i j + 1 else M i j

/-- One step of the counting loop: increment the cell
`(index(next), index(current))`. -/
def addPair (labels : List String) (M : ℕ → ℕ → ℚ) (p : String × String) :
    ℕ → ℕ → ℚ :=
  bump M (wordIdx labels p.2) (wordIdx labels p.1)

/-- The raw transition counts accumulated by the two nested `for` loops of
`SentenceGenerator.__init__`, starting from `np.zeros((n,n))`. -/
def rawCounts (labels : List String) (sentences : List (List String)) :
    ℕ → ℕ → ℚ :=
  sentences.foldl (fun M s => (pairsOf (framed s)).foldl (addPair labels) M)
    (fun _ _ => 0)

/-- `self.transition_matrix[n-1, n-1] = 1`: the forced override of the single
cell `(n-1, n-1)`, applied after counting and before normalization. -/
def withOverride (n : ℕ) (M : ℕ → ℕ → ℚ) : ℕ → ℕ → ℚ :=
  fun i j => if i = n - 1 ∧ j = n - 1 then 1 else M i j

/-- The generator's matrix right before the normalization loop. -/
def countsMatrix (sentences : List (List String)) : NpMatrix :=
  let labels := stateLabels sentences
  let n := labels.length
  ⟨n, n, withOverride n (rawCounts labels sentences)⟩

/-- `self.transition_matrix[:,i] /= self.transition_matrix[:,i].sum()` for
every column: the final normalized matrix.  numpy produces NaN (0/0) or inf
entries when a column sums to 0; `ℚ` has no NaN, so a zero-sum column is
tracked separately by `colSum (countsMatrix _) j = 0` (see C9), and on such a
column the `ℚ` convention `x / 0 = 0` stands in for the NaN entries. -/
def transMatrix (sentences : List (List String)) : NpMatrix :=
  let C := countsMatrix sentences
  ⟨C.m, C.n, fun i j => C.entry i j / colSum C j⟩

/-- Python `str.strip()` on a character list: drop whitespace from both
ends. -/
def stripChars (l : List Char) : List Char :=
  ((l.dropWhile Char.isWhitespace).reverse.dropWhile Char.isWhitespace).reverse

/-- Python `' '.join(words).strip()` as used by `babble`. -/
def joinStrip (words : List String) : String :=
  ⟨stripChars (String.intercalate " " words).data⟩

/-- `SentenceGenerator.babble()`: rebuild a `MarkovChain` from the stored
matrix and labels, run `path('$tart', '$top')`, `list.remove` the first
occurrence of each sentinel, join with single spaces and strip.  `none`
reports a path that did not terminate within the fuel (the source would still
be looping) — the chain construction and sentinel removals of the source
cannot fail on a generator-built model. -/
def babble (sentences : List (List String)) (us : ℕ → ℚ) (fuel : ℕ) :
    Option String :=
  match mkMarkovChain (transMatrix sentences) (stateLabels sentences) with
  | .error _ => none
  | .ok c =>
    match c.path us fuel tartLabel topLabel with
    | .ok l => some (joinStrip ((l.erase tartLabel).erase topLabel))
    | _ => none

/-- The number of occurrences of the consecutive pair `(c, nx)` across all
framed sentences of the corpus. -/
def pairCount (sentences : List (List String)) (c nx : String) : ℕ :=
  (allPairs sentences).count (c, nx)

/-- Does the pair `p` contribute to the count cell `(a, b)`?  True when
`a = index(next)` and `b = index(current)`. -/
def hitCell (labels : List String) (a b : ℕ) (p : String × String) : Bool :=
  decide (a = wordIdx labels p.2 ∧ b = wordIdx labels p.1)

/-- ℕ-valued mirror of the pre-normalization matrix entries (the raw counts
with the `(n-1, n-1)` override): used to reduce concrete `ℚ` matrix values to
decidable natural-number computations. -/
def countsVal (sentences : List (List String)) (i j : ℕ) : ℕ :=
  let labels := stateLabels sentences
  let n := labels.length
  if i = n - 1 ∧ j = n - 1 then 1
  else (allPairs sentences).countP (hitCell labels i j)

/-- ℕ-valued mirror of a column sum of the pre-normalization matrix. -/
def colCount (sentences : List (List String)) (j : ℕ) : ℕ :=
  ((List.range (stateLabels sentences).length).map
    (fun i => countsVal sentences i j)).sum

/-! ## Concrete instances appearing in the claims -/

/-- The 2×2 identity matrix: both states absorbing. -/
def idMat2 : NpMatrix := ⟨2, 2, fun i j => if i = j then 1 else 0⟩

/-- A chain over the identity matrix with default labels `[0, 1]`. -/
def idChain2 : MarkovChain ℕ := ⟨idMat2, [0, 1]⟩

/-- The 1×1 matrix `[[1]]`. -/
def oneMat : NpMatrix := ⟨1, 1, fun _ _ => 1⟩

/-- A one-state chain with label `"A"`. -/
def oneChain : MarkovChain String := ⟨oneMat, ["A"]⟩

/-- A 2×3 matrix whose three columns each sum to 1. -/
def mat23 : NpMatrix := ⟨2, 3, fun _ _ => 1 / 2⟩

/-- A 2×2 column-stochastic matrix (for the duplicate-label instance). -/
def halfMat2 : NpMatrix := ⟨2, 2, fun _ _ => 1 / 2⟩

/-- A 1×1 matrix whose single column sums to `1 + 5e-6`: off by far more than
the absolute tolerance `1e-8`, yet within `npTol`. -/
def offMat : NpMatrix := ⟨1, 1, fun _ _ => 1 + 1 / 200000⟩

/-- The corpus `["hello world"]`, tokenized. -/
def hwCorpus : List (List String) := [["hello", "world"]]

/-- The corpus `["the cat sat", "the dog sat"]`, tokenized. -/
def exCorpus : List (List String) := [["the", "cat", "sat"], ["the", "dog", "sat"]]

/-- The chain `babble` builds over `hwCorpus`
(`MarkovChain(self.transition_matrix, self.state_labels)`). -/
def hwChain : MarkovChain String := ⟨transMatrix hwCorpus, stateLabels hwCorpus⟩

/-- The corpus `["a"]`, tokenized. -/
def aCorpus : List (List String) := [["a"]]

/-- A pathological corpus whose sentence contains the literal stop-sentinel
token: `["$top a"]`, tokenized. -/
def badCorpus : List (List String) := [["$top", "a"]]

/-! ## Helper lemmas: the dict comprehension -/

theorem getLast?_mem {α : Type} {l : List α} {a : α} (h : l.getLast? = some a) :
    a ∈ l := by
  obtain ⟨hne, rfl⟩ := List.mem_getLast?_eq_getLast (l := l) (x := a) h
  exact List.getLast_mem hne

theorem mem_zip_range' {α : Type} :
    ∀ (l : List α) (s : ℕ) (p : α × ℕ), p ∈ l.zip (List.range' s l.length) →
      ∃ k, p.2 = s + k ∧ l.get? k = some p.1 := by
  intro l
  induction l with
  | nil => intro s p h; simp at h
  | cons a t ih =>
    intro s p h
    rw [List.length_cons, List.range'_succ s t.length 1, List.zip_cons_cons] at h
    rcases List.mem_cons.mp h with h | h
    · exact ⟨0, by simp [h], by simp [h]⟩
    · obtain ⟨k, hk, hget⟩ := ih (s + 1) p h
      exact ⟨k + 1, by omega, by simpa using hget⟩

theorem get?_mem_zip_range' {α : Type} :
    ∀ (l : List α) (k s : ℕ) (x : α), l.get? k = some x →
      (x, s + k) ∈ l.zip (List.range' s l.length) := by
  intro l
  induction l with
  | nil => intro k s x h; simp at h
  | cons a t ih =>
    intro k s x h
    rw [List.length_cons, List.range'_succ s t.length 1, List.zip_cons_cons]
    match k with
    | 0 =>
      simp only [List.get?] at h
      have hx : a = x := by injection h
      exact List.mem_cons.mpr (Or.inl (by simp [hx]))
    | k + 1 =>
      simp only [List.get?] at h
      have := ih k (s + 1) x h
      refine List.mem_cons.mpr (Or.inr ?_)
      rw [show s + (k + 1) = s + 1 + k by omega]
      exact this

theorem statesIndexMap_get {α : Type} [DecidableEq α] {l : List α} {x : α} {i : ℕ}
    (h : statesIndexMap l l.length x = some i) : l.get? i = some x := by
  unfold statesIndexMap at h
  rw [Option.map_eq_some'] at h
  obtain ⟨p, hp, hpi⟩ := h
  have hmem := getLast?_mem hp
  have hzip := List.mem_of_mem_filter hmem
  have hpred := List.of_mem_filter hmem
  have hx : p.1 = x := of_decide_eq_true hpred
  rw [List.range_eq_range' l.length] at hzip
  obtain ⟨k, hk, hget⟩ := mem_zip_range' l 0 p hzip
  have : k = i := by omega
  subst this
  rw [hget, hx]

theorem statesIndexMap_isSome {α : Type} [DecidableEq α] {l : List α} {x : α}
    (h : x ∈ l) : (statesIndexMap l l.length x).isSome = true := by
  obtain ⟨k, hk⟩ := List.get?_of_mem h
  have hzip : (x, k) ∈ l.zip (List.range l.length) := by
    rw [List.range_eq_range' l.length]
    simpa using get?_mem_zip_range' l k 0 x hk
  have hfil : (x, k) ∈ (l.zip (List.range l.length)).filter
      (fun p => decide (p.1 = x)) :=
    List.mem_filter.mpr ⟨hzip, by simp⟩
  unfold statesIndexMap
  rcases hlast : ((l.zip (List.range l.length)).filter
      (fun p => decide (p.1 = x))).getLast? with _ | p
  · rw [List.getLast?_eq_none_iff] at hlast
    rw [hlast] at hfil
    simp at hfil
  · simp [hlast]

theorem wordIdx_get {l : List String} {w : String} (h : w ∈ l) :
    l.get? (wordIdx l w) = some w := by
  have hs := statesIndexMap_isSome (l := l) (x := w) h
  rcases hi : statesIndexMap l l.length w with _ | i
  · rw [hi] at hs; simp at hs
  · have := statesIndexMap_get hi
    simpa [wordIdx, hi] using this

theorem wordIdx_lt {l : List String} {w : String} (h : w ∈ l) :
    wordIdx l w < l.length := by
  have := wordIdx_get h
  rcases List.get?_eq_some.mp this with ⟨hlt, _⟩
  exact hlt

theorem wordIdx_inj {l : List String} {w₁ w₂ : String} (h₁ : w₁ ∈ l)
    (h₂ : w₂ ∈ l) (h : wordIdx l w₁ = wordIdx l w₂) : w₁ = w₂ := by
  have g₁ := wordIdx_get h₁
  have g₂ := wordIdx_get h₂
  rw [h] at g₁
  rw [g₁] at g₂
  injection g₂

/-! ## Helper lemmas: the counting loops -/

theorem foldl_addPair_apply (labels : List String) :
    ∀ (ps : List (String × String)) (M : ℕ → ℕ → ℚ) (a b : ℕ),
      (ps.foldl (addPair labels) M) a b
        = M a b + (ps.countP (hitCell labels a b) : ℚ) := by
  intro ps
  induction ps with
  | nil => intro M a b; simp
  | cons p ps ih =>
    intro M a b
    rw [List.foldl_cons, ih, List.countP_cons]
    unfold addPair bump hitCell
    by_cases hc : a = wordIdx labels p.2 ∧ b = wordIdx labels p.1
    · rw [if_pos hc, if_pos (by simpa using hc)]
      push_cast
      ring
    · rw [if_neg hc, if_neg (by simpa using hc)]
      push_cast
      ring

theorem rawCounts_apply (labels : List String)
    (sentences : List (List String)) (a b : ℕ) :
    rawCounts labels sentences a b
      = ((allPairs sentences).countP (hitCell labels a b) : ℚ) := by
  have hfold : rawCounts labels sentences
      = (allPairs sentences).foldl (addPair labels) (fun _ _ => 0) := by
    unfold rawCounts allPairs
    rw [List.foldl_flatten, List.foldl_map]
  rw [hfold, foldl_addPair_apply]
  simp

theorem countsMatrix_entry (sentences : List (List String)) (i j : ℕ) :
    (countsMatrix sentences).entry i j = (countsVal sentences i j : ℚ) := by
  unfold countsMatrix countsVal withOverride
  by_cases h : i = (stateLabels sentences).length - 1 ∧
      j = (stateLabels sentences).length - 1
  · simp only [h, and_self, if_true]
    norm_num
  · simp only [if_neg h]
    rw [rawCounts_apply]

theorem countsMatrix_m (sentences : List (List String)) :
    (countsMatrix sentences).m = (stateLabels sentences).length := rfl

theorem colSum_countsMatrix (sentences : List (List String)) (j : ℕ) :
    colSum (countsMatrix sentences) j = (colCount sentences j : ℚ) := by
  unfold colSum colCount
  rw [countsMatrix_m, Nat.cast_list_sum, List.map_map]
  congr 1
  apply List.map_congr_left
  intro i _
  exact countsMatrix_entry sentences i j

theorem transMatrix_entry (sentences : List (List String)) (i j : ℕ) :
    (transMatrix sentences).entry i j
      = (countsVal sentences i j : ℚ) / (colCount sentences j : ℚ) := by
  show (countsMatrix sentences).entry i j / colSum (countsMatrix sentences) j = _
  rw [countsMatrix_entry, colSum_countsMatrix]

theorem transMatrix_m (sentences : List (List String)) :
    (transMatrix sentences).m = (stateLabels sentences).length := rfl

theorem transMatrix_n (sentences : List (List String)) :
    (transMatrix sentences).n = (stateLabels sentences).length := rfl

theorem colSum_transMatrix (sentences : List (List String)) (j : ℕ)
    (h : colCount sentences j ≠ 0) : colSum (transMatrix sentences) j = 1 := by
  unfold colSum
  rw [transMatrix_m]
  have : ((List.range (stateLabels sentences).length).map
        (fun i => (transMatrix sentences).entry i j))
      = ((List.range (stateLabels sentences).length).map
        (fun i => (countsVal sentences i j : ℚ) * ((colCount sentences j : ℚ))⁻¹)) := by
    apply List.map_congr_left
    intro i _
    rw [transMatrix_entry, div_eq_mul_inv]
  rw [this, List.sum_map_mul_right]
  have hcast : (List.map (fun i => ((countsVal sentences i j : ℕ) : ℚ))
        (List.range (stateLabels sentences).length)).sum
      = (((List.map (fun i => countsVal sentences i j)
        (List.range (stateLabels sentences).length)).sum : ℕ) : ℚ) := by
    rw [Nat.cast_list_sum, List.map_map]
    rfl
  rw [hcast]
  show ((colCount sentences j : ℚ)) * _ = 1
  rw [mul_inv_cancel₀ (by exact_mod_cast h)]

theorem colsAllcloseOne_iff (A : NpMatrix) :
    colsAllcloseOne A = true ↔ ∀ j < A.n, |colSum A j - 1| ≤ npTol := by
  unfold colsAllcloseOne
  rw [List.all_eq_true]
  constructor
  · intro h j hj
    exact of_decide_eq_true (h j (List.mem_range.mpr hj))
  · intro h j hj
    exact decide_eq_true (h j (List.mem_range.mp hj))

theorem colsAllcloseOne_transMatrix (sentences : List (List String))
    (h : ∀ j < (stateLabels sentences).length, colCount sentences j ≠ 0) :
    colsAllcloseOne (transMatrix sentences) = true := by
  rw [colsAllcloseOne_iff]
  intro j hj
  rw [transMatrix_n] at hj
  rw [colSum_transMatrix sentences j (h j hj)]
  norm_num [npTol, npAtol, npRtol]

/-! ## Helper lemmas: sentence framing and the stop column -/

theorem mem_pairsOf {p : String × String} :
    ∀ {l : List String}, p ∈ pairsOf l →
      ∃ k, l.get? k = some p.1 ∧ l.get? (k + 1) = some p.2 := by
  intro l
  induction l with
  | nil => intro h; simp [pairsOf] at h
  | cons a t ih =>
    intro h
    match t with
    | [] => simp [pairsOf] at h
    | b :: t' =>
      rw [pairsOf, List.tail_cons, List.zip_cons_cons] at h
      rcases List.mem_cons.mp h with h | h
      · exact ⟨0, by simp [h], by simp [h]⟩
      · obtain ⟨k, h1, h2⟩ := ih h
        exact ⟨k + 1, by simpa using h1, by simpa using h2⟩

theorem pairsOf_fst_mem {p : String × String} {l : List String}
    (h : p ∈ pairsOf l) : p.1 ∈ l :=
  (List.of_mem_zip h).1

theorem pairsOf_snd_mem {p : String × String} {l : List String}
    (h : p ∈ pairsOf l) : p.2 ∈ l :=
  List.mem_of_mem_tail (List.of_mem_zip h).2

theorem mem_framed {w : String} {toks : List String} (h : w ∈ framed toks) :
    w = tartLabel ∨ w ∈ toks ∨ w = topLabel := by
  rw [framed, List.mem_cons, List.mem_append] at h
  rcases h with h | h | h
  · exact Or.inl h
  · exact Or.inr (Or.inl h)
  · exact Or.inr (Or.inr (by simpa using h))

theorem framed_mem_labels {sentences : List (List String)}
    {s : List String} (hs : s ∈ sentences) {w : String} (hw : w ∈ framed s) :
    w ∈ stateLabels sentences := by
  rw [stateLabels, List.mem_cons, List.mem_append]
  rcases mem_framed hw with h | h | h
  · exact Or.inl h
  · refine Or.inr (Or.inl ?_)
    exact List.mem_dedup.mpr (List.mem_flatten.mpr ⟨s, hs, h⟩)
  · exact Or.inr (Or.inr (by simp [h]))

theorem allPairs_mem {sentences : List (List String)} {p : String × String}
    (h : p ∈ allPairs sentences) :
    ∃ s ∈ sentences, p ∈ pairsOf (framed s) := by
  rw [allPairs] at h
  obtain ⟨l, hl, hp⟩ := List.mem_flatten.mp h
  obtain ⟨s, hs, rfl⟩ := List.mem_map.mp hl
  exact ⟨s, hs, hp⟩

theorem framed_get_top {toks : List String} (htop : topLabel ∉ toks) {k : ℕ}
    (h : (framed toks).get? k = some topLabel) : k = toks.length + 1 := by
  match k with
  | 0 =>
    rw [framed] at h
    simp only [List.get?] at h
    have : tartLabel = topLabel := by injection h
    exact absurd this (by decide)
  | j + 1 =>
    rw [framed] at h
    simp only [List.get?] at h
    rcases Nat.lt_or_ge j toks.length with hj | hj
    · rw [List.get?_append hj] at h
      exact absurd (List.get?_mem h) htop
    · rw [List.get?_append_right hj] at h
      match hd : j - toks.length with
      | 0 => omega
      | d + 1 => rw [hd] at h; simp at h

theorem framed_fst_ne_top {toks : List String} (htop : topLabel ∉ toks)
    {p : String × String} (hp : p ∈ pairsOf (framed toks)) :
    p.1 ≠ topLabel := by
  intro heq
  obtain ⟨k, h1, h2⟩ := mem_pairsOf hp
  rw [heq] at h1
  have hk := framed_get_top htop h1
  have hlen : (framed toks).length = toks.length + 2 := by
    simp [framed]
  have : (framed toks).get? (k + 1) = none := by
    rw [List.get?_eq_none]
    omega
  rw [this] at h2
  exact absurd h2 (by simp)

theorem stateLabels_get_last (sentences : List (List String)) :
    (stateLabels sentences).get?
      ((stateLabels sentences).length - 1) = some topLabel := by
  rw [stateLabels]
  have hshape : tartLabel :: (sentences.flatten.dedup ++ [topLabel])
      = (tartLabel :: sentences.flatten.dedup) ++ [topLabel] := by simp
  rw [hshape]
  have hlen : ((tartLabel :: sentences.flatten.dedup) ++ [topLabel]).length - 1
      = (tartLabel :: sentences.flatten.dedup).length := by
    simp
  rw [hlen, List.get?_eq_getElem?, List.getElem?_concat_length]

theorem wordIdx_ne_last {sentences : List (List String)} {w : String}
    (hw : w ∈ stateLabels sentences) (hne : w ≠ topLabel) :
    wordIdx (stateLabels sentences) w ≠ (stateLabels sentences).length - 1 := by
  intro heq
  have hg := wordIdx_get hw
  rw [heq, stateLabels_get_last] at hg
  have : topLabel = w := by injection hg
  exact hne this.symm

theorem sum_range_single :
    ∀ (n k : ℕ), k < n →
    ∀ (f : ℕ → ℚ), (∀ i < n, i ≠ k → f i = 0) →
      ((List.range n).map f).sum = f k := by
  intro n
  induction n with
  | zero => intro k hk; omega
  | succ n ih =>
    intro k hk f hf
    rw [List.range_succ, List.map_append, List.sum_append]
    rcases Nat.lt_or_ge k n with hkn | hkn
    · rw [ih k hkn f (fun i hi hik => hf i (by omega) hik)]
      have : f n = 0 := hf n (by omega) (by omega)
      simp [this]
    · have hk_eq : k = n := by omega
      subst hk_eq
      have hzero : ((List.range k).map f).sum = 0 := by
        apply List.sum_eq_zero
        intro x hx
        obtain ⟨i, hi, rfl⟩ := List.mem_map.mp hx
        exact hf i (by simpa using Nat.lt_succ_of_lt (List.mem_range.mp hi))
          (by exact Nat.ne_of_lt (List.mem_range.mp hi))
      rw [hzero]
      simp

/-! ## Helper lemmas: traversal -/

theorem sampleIdx_zeros_one (u : ℚ) (h0 : 0 ≤ u) (h1 : u < 1) :
    ∀ (k : ℕ) (rest : List ℚ),
      sampleIdx u (List.replicate k 0 ++ 1 :: rest) = k := by
  intro k
  induction k with
  | zero =>
    intro rest
    simp only [List.replicate, List.nil_append, sampleIdx]
    rw [if_pos h1]
  | succ k ih =>
    intro rest
    rw [List.replicate_succ, List.cons_append]
    simp only [sampleIdx]
    rw [if_neg (not_lt.mpr h0), sub_zero, ih]

theorem pathAux_ok_ends {α : Type} [DecidableEq α] (c : MarkovChain α)
    (us : ℕ → ℚ) :
    ∀ (fuel k : ℕ) (current stop : α) (visited l : List α),
      visited.getLast? = some current →
      c.pathAux us fuel k current stop visited = .ok l →
      l.head? = visited.head? ∧ l.getLast? = some stop := by
  intro fuel
  induction fuel with
  | zero =>
    intro k current stop visited l hv h
    rw [MarkovChain.pathAux] at h
    by_cases hc : current = stop
    · rw [if_pos hc] at h
      have hl : visited = l := by injection h
      subst hl
      subst hc
      exact ⟨rfl, hv⟩
    · rw [if_neg hc] at h
      exact absurd h (by simp)
  | succ fuel ih =>
    intro k current stop visited l hv h
    rw [MarkovChain.pathAux] at h
    by_cases hc : current = stop
    · rw [if_pos hc] at h
      have hl : visited = l := by injection h
      subst hl
      subst hc
      exact ⟨rfl, hv⟩
    · rw [if_neg hc] at h
      rcases htr : c.transition (us k) current with e | nxt
      · rw [htr] at h
        exact absurd h (by simp)
      · rw [htr] at h
        have hv' : (visited ++ [nxt]).getLast? = some nxt := List.getLast?_concat _
        obtain ⟨hh, hl⟩ := ih (k + 1) nxt stop (visited ++ [nxt]) l hv' h
        refine ⟨?_, hl⟩
        rw [hh]
        match visited, hv with
        | v :: vs, _ => simp

theorem idChain2_transition_zero (u : ℚ) (h0 : 0 ≤ u) (h1 : u < 1) :
    idChain2.transition u 0 = .ok 0 := by
  have hm : statesIndexMap idChain2.states idChain2.A.n 0 = some 0 := by decide
  have hcol : (List.range idChain2.A.m).map (fun i => idChain2.A.entry i 0)
      = [1, 0] := by
    have hr : List.range idChain2.A.m = [0, 1] := by decide
    rw [hr]
    simp only [List.map_cons, List.map_nil]
    norm_num [idChain2, idMat2]
  have hs : sampleIdx u [1, 0] = 0 := by
    have := sampleIdx_zeros_one u h0 h1 0 [0]
    simpa using this
  simp only [MarkovChain.transition, hm, hcol, hs]
  rfl

theorem pathAux_self {α : Type} [DecidableEq α] (c : MarkovChain α)
    (us : ℕ → ℚ) (fuel k : ℕ) (stop : α) (visited : List α) :
    c.pathAux us fuel k stop stop visited = .ok visited := by
  cases fuel with
  | zero => rw [MarkovChain.pathAux, if_pos rfl]
  | succ fuel => rw [MarkovChain.pathAux, if_pos rfl]

theorem pathAux_idChain2_stuck (u : ℚ) (h0 : 0 ≤ u) (h1 : u < 1) :
    ∀ (fuel k : ℕ) (visited : List ℕ),
      idChain2.pathAux (fun _ => u) fuel k 0 1 visited = .fuelOut := by
  intro fuel
  induction fuel with
  | zero =>
    intro k visited
    rw [MarkovChain.pathAux]
    rw [if_neg (by omega)]
  | succ fuel ih =>
    intro k visited
    rw [MarkovChain.pathAux]
    rw [if_neg (by omega)]
    rw [idChain2_transition_zero u h0 h1]
    exact ih (k + 1) (visited ++ [0])

/-! ## Helper lemmas: the hello-world generator chain -/

theorem hw_col0 : (List.range hwChain.A.m).map (fun i => hwChain.A.entry i 0)
    = [0, 1, 0, 0] := by
  have hr : List.range hwChain.A.m = [0, 1, 2, 3] := by decide
  rw [hr]
  simp only [List.map_cons, List.map_nil]
  show [(transMatrix hwCorpus).entry 0 0, (transMatrix hwCorpus).entry 1 0,
    (transMatrix hwCorpus).entry 2 0, (transMatrix hwCorpus).entry 3 0] = _
  rw [transMatrix_entry, transMatrix_entry, transMatrix_entry, transMatrix_entry]
  norm_num [(by decide : countsVal hwCorpus 0 0 = 0),
    (by decide : countsVal hwCorpus 1 0 = 1),
    (by decide : countsVal hwCorpus 2 0 = 0),
    (by decide : countsVal hwCorpus 3 0 = 0),
    (by decide : colCount hwCorpus 0 = 1)]

theorem hw_col1 : (List.range hwChain.A.m).map (fun i => hwChain.A.entry i 1)
    = [0, 0, 1, 0] := by
  have hr : List.range hwChain.A.m = [0, 1, 2, 3] := by decide
  rw [hr]
  simp only [List.map_cons, List.map_nil]
  show [(transMatrix hwCorpus).entry 0 1, (transMatrix hwCorpus).entry 1 1,
    (transMatrix hwCorpus).entry 2 1, (transMatrix hwCorpus).entry 3 1] = _
  rw [transMatrix_entry, transMatrix_entry, transMatrix_entry, transMatrix_entry]
  norm_num [(by decide : countsVal hwCorpus 0 1 = 0),
    (by decide : countsVal hwCorpus 1 1 = 0),
    (by decide : countsVal hwCorpus 2 1 = 1),
    (by decide : countsVal hwCorpus 3 1 = 0),
    (by decide : colCount hwCorpus 1 = 1)]

theorem hw_col2 : (List.range hwChain.A.m).map (fun i => hwChain.A.entry i 2)
    = [0, 0, 0, 1] := by
  have hr : List.range hwChain.A.m = [0, 1, 2, 3] := by decide
  rw [hr]
  simp only [List.map_cons, List.map_nil]
  show [(transMatrix hwCorpus).entry 0 2, (transMatrix hwCorpus).entry 1 2,
    (transMatrix hwCorpus).entry 2 2, (transMatrix hwCorpus).entry 3 2] = _
  rw [transMatrix_entry, transMatrix_entry, transMatrix_entry, transMatrix_entry]
  norm_num [(by decide : countsVal hwCorpus 0 2 = 0),
    (by decide : countsVal hwCorpus 1 2 = 0),
    (by decide : countsVal hwCorpus 2 2 = 0),
    (by decide : countsVal hwCorpus 3 2 = 1),
    (by decide : colCount hwCorpus 2 = 1)]

theorem hw_tr_tart (u : ℚ) (h0 : 0 ≤ u) (h1 : u < 1) :
    hwChain.transition u tartLabel = .ok "hello" := by
  have hm : statesIndexMap hwChain.states hwChain.A.n tartLabel = some 0 := by
    decide
  have hs : sampleIdx u [0, 1, 0, 0] = 1 := by
    have := sampleIdx_zeros_one u h0 h1 1 [0, 0]
    simpa using this
  simp only [MarkovChain.transition, hm, hw_col0, hs]
  rfl

theorem hw_tr_hello (u : ℚ) (h0 : 0 ≤ u) (h1 : u < 1) :
    hwChain.transition u "hello" = .ok "world" := by
  have hm : statesIndexMap hwChain.states hwChain.A.n "hello" = some 1 := by
    decide
  have hs : sampleIdx u [0, 0, 1, 0] = 2 := by
    have := sampleIdx_zeros_one u h0 h1 2 [0]
    simpa using this
  simp only [MarkovChain.transition, hm, hw_col1, hs]
  rfl

theorem hw_tr_world (u : ℚ) (h0 : 0 ≤ u) (h1 : u < 1) :
    hwChain.transition u "world" = .ok topLabel := by
  have hm : statesIndexMap hwChain.states hwChain.A.n "world" = some 2 := by
    decide
  have hs : sampleIdx u [0, 0, 0, 1] = 3 := by
    have := sampleIdx_zeros_one u h0 h1 3 []
    simpa using this
  simp only [MarkovChain.transition, hm, hw_col2, hs]
  rfl

theorem hw_path (us : ℕ → ℚ) (hus : ∀ k, 0 ≤ us k ∧ us k < 1) (fuel : ℕ)
    (hf : 3 ≤ fuel) :
    hwChain.path us fuel tartLabel topLabel
      = .ok [tartLabel, "hello", "world", topLabel] := by
  obtain ⟨f, rfl⟩ : ∃ f, fuel = f + 3 := ⟨fuel - 3, by omega⟩
  have t0 := hw_tr_tart (us 0) (hus 0).1 (hus 0).2
  have t1 := hw_tr_hello (us 1) (hus 1).1 (hus 1).2
  have t2 := hw_tr_world (us 2) (hus 2).1 (hus 2).2
  show hwChain.pathAux us (f + 1 + 1 + 1) 0 tartLabel topLabel [tartLabel] = _
  rw [MarkovChain.pathAux, if_neg (by decide : ¬ (tartLabel = topLabel)), t0]
  show hwChain.pathAux us (f + 1 + 1) 1 "hello" topLabel
    [tartLabel, "hello"] = _
  rw [MarkovChain.pathAux, if_neg (by decide : ¬ ("hello" = topLabel)), t1]
  show hwChain.pathAux us (f + 1) 2 "world" topLabel
    [tartLabel, "hello", "world"] = _
  rw [MarkovChain.pathAux, if_neg (by decide : ¬ ("world" = topLabel)), t2]
  show hwChain.pathAux us f 3 topLabel topLabel
    [tartLabel, "hello", "world", topLabel] = _
  rw [pathAux_self]

theorem hw_allclose : colsAllcloseOne (transMatrix hwCorpus) = true := by
  apply colsAllcloseOne_transMatrix
  intro j hj
  rw [(by decide : (stateLabels hwCorpus).length = 4)] at hj
  interval_cases j <;> decide

theorem hw_mk : mkMarkovChain (transMatrix hwCorpus) (stateLabels hwCorpus)
    = .ok hwChain := by
  simp [mkMarkovChain, hw_allclose, hwChain]

/-! ## Helper lemmas: small concrete matrices -/

theorem allclose_of_unit_colSums (A : NpMatrix) (h : ∀ j < A.n, colSum A j = 1) :
    colsAllcloseOne A = true := by
  rw [colsAllcloseOne_iff]
  intro j hj
  rw [h j hj]
  norm_num [npTol, npAtol, npRtol]

theorem mat23_allclose : colsAllcloseOne mat23 = true := by
  apply allclose_of_unit_colSums
  intro j hj
  rw [colSum, (by decide : List.range mat23.m = [0, 1])]
  simp only [List.map_cons, List.map_nil, List.sum_cons, List.sum_nil]
  norm_num [mat23]

theorem halfMat2_allclose : colsAllcloseOne halfMat2 = true := by
  apply allclose_of_unit_colSums
  intro j hj
  rw [colSum, (by decide : List.range halfMat2.m = [0, 1])]
  simp only [List.map_cons, List.map_nil, List.sum_cons, List.sum_nil]
  norm_num [halfMat2]

theorem idMat2_allclose : colsAllcloseOne idMat2 = true := by
  apply allclose_of_unit_colSums
  intro j hj
  rw [colSum, (by decide : List.range idMat2.m = [0, 1])]
  simp only [List.map_cons, List.map_nil, List.sum_cons, List.sum_nil]
  rw [(by decide : idMat2.n = 2)] at hj
  interval_cases j <;> norm_num [idMat2]

theorem oneMat_allclose : colsAllcloseOne oneMat = true := by
  apply allclose_of_unit_colSums
  intro j hj
  rw [colSum, (by decide : List.range oneMat.m = [0])]
  simp only [List.map_cons, List.map_nil, List.sum_cons, List.sum_nil]
  norm_num [oneMat]

theorem offMat_colSum : colSum offMat 0 = 1 + 1 / 200000 := by
  rw [colSum, (by decide : List.range offMat.m = [0])]
  simp only [List.map_cons, List.map_nil, List.sum_cons, List.sum_nil]
  norm_num [offMat]

theorem offMat_allclose : colsAllcloseOne offMat = true := by
  rw [colsAllcloseOne_iff]
  intro j hj
  rw [(by decide : offMat.n = 1)] at hj
  interval_cases j
  rw [offMat_colSum]
  rw [show (1 + 1 / 200000 : ℚ) - 1 = 1 / 200000 by norm_num]
  rw [abs_of_pos (by norm_num)]
  norm_num [npTol, npAtol, npRtol]

/-! ## Claim theorems -/

/-- C10: for every label `s` (valid or not), `path(s, s)` returns `[s]`
immediately: the `while` guard fails before any transition, so no label
lookup happens and no error can be raised. -/
theorem path_self_singleton {α : Type} [DecidableEq α] (c : MarkovChain α)
    (us : ℕ → ℚ) (fuel : ℕ) (s : α) : c.path us fuel s s = .ok [s] :=
  pathAux_self c us fuel 0 s [s]

/-- C6 evaluation: `MarkovChain.__init__` accepts the non-square 2×3 matrix
with all entries 1/2 (every column sums to 1): `m, n = A.shape` only unpacks
the shape and no squareness check exists, contradicting the docstring's
`Raises: ValueError: if A is not square`. -/
theorem mk_accepts_nonsquare :
    mat23.m ≠ mat23.n ∧ mkMarkovChainDefault mat23 = .ok ⟨mat23, [0, 1, 2]⟩ := by
  constructor
  · decide
  · have hr : List.range mat23.n = [0, 1, 2] := by decide
    simp [mkMarkovChainDefault, mkMarkovChain, mat23_allclose, hr]

/-- C7 counterexample: with the duplicate label list `["A", "A"]` and a valid
column-stochastic matrix, construction succeeds (no `DuplicateLabel` failure
exists), and the dict lookup maps `"A"` to its last index 1. -/
theorem mk_duplicate_labels_cex :
    mkMarkovChain halfMat2 ["A", "A"] = .ok ⟨halfMat2, ["A", "A"]⟩ ∧
    statesIndexMap ["A", "A"] halfMat2.n "A" = some 1 := by
  constructor
  · simp [mkMarkovChain, halfMat2_allclose]
  · decide

/-- C7 amended: construction checks only column-stochasticity; for any label
list — duplicates included — it succeeds and stores the list unchanged, the
dict comprehension silently mapping a duplicated label to its last index. -/
theorem mk_no_uniqueness_check {α : Type} [DecidableEq α] (A : NpMatrix)
    (states : List α) (h : colsAllcloseOne A = true) :
    mkMarkovChain A states = .ok ⟨A, states⟩ := by
  simp [mkMarkovChain, h]

/-- Witness for C7's amended theorem at the duplicate-label input. -/
theorem mk_no_uniqueness_check_witness :
    colsAllcloseOne halfMat2 = true ∧
    mkMarkovChain halfMat2 ["A", "A"] = .ok ⟨halfMat2, ["A", "A"]⟩ :=
  ⟨halfMat2_allclose, mk_no_uniqueness_check halfMat2 ["A", "A"] halfMat2_allclose⟩

/-- C9 evaluation: on the empty corpus the builder raises nothing: it
produces the 2-state label list `["$tart", "$top"]` and a pre-normalization
matrix whose column 0 (the START column) sums to 0, so the normalization
loop divides that column by zero — numpy emits NaN entries (0/0) with no
exception; no `EmptyVocabularyOrCorpus` or `DegenerateColumn` error exists
in the code. -/
theorem empty_corpus_divides_by_zero :
    stateLabels ([] : List (List String)) = [tartLabel, topLabel] ∧
    colSum (countsMatrix ([] : List (List String))) 0 = 0 := by
  constructor
  · decide
  · rw [colSum_countsMatrix]
    norm_num [(by decide : colCount ([] : List (List String)) 0 = 0)]

/-- C1 amended: construction with default labels succeeds — returning the
matrix unchanged — exactly when every column sum is within numpy
`allclose`'s tolerance `npTol = 1e-8 + 1e-5·|1|` of 1 (not the claimed
absolute `≈ 1e-8`), fails with the `NotColumnStochastic` `ValueError`
otherwise, and on success every stored column sum is within that
tolerance. -/
theorem mk_ok_iff_within_tol (A : NpMatrix) :
    (mkMarkovChainDefault A = .ok ⟨A, List.range A.n⟩ ↔
      ∀ j < A.n, |colSum A j - 1| ≤ npTol) ∧
    ((¬ ∀ j < A.n, |colSum A j - 1| ≤ npTol) →
      mkMarkovChainDefault A = .error .notColumnStochastic) ∧
    (∀ c, mkMarkovChainDefault A = .ok c →
      c.A = A ∧ ∀ j < c.A.n, |colSum c.A j - 1| ≤ npTol) := by
  by_cases hb : colsAllcloseOne A = true
  · have hok : mkMarkovChainDefault A = .ok ⟨A, List.range A.n⟩ := by
      simp [mkMarkovChainDefault, mkMarkovChain, hb]
    have htol := (colsAllcloseOne_iff A).mp hb
    refine ⟨⟨fun _ => htol, fun _ => hok⟩, fun hcon => absurd htol hcon, ?_⟩
    intro c hc
    rw [hok] at hc
    have : (⟨A, List.range A.n⟩ : MarkovChain ℕ) = c := by injection hc
    subst this
    exact ⟨rfl, htol⟩
  · have herr : mkMarkovChainDefault A = .error .notColumnStochastic := by
      simp only [mkMarkovChainDefault, mkMarkovChain]
      rw [if_neg (by simpa using hb)]
    have htol : ¬ ∀ j < A.n, |colSum A j - 1| ≤ npTol := fun hc =>
      hb ((colsAllcloseOne_iff A).mpr hc)
    refine ⟨⟨fun hok => absurd (herr ▸ hok) (by simp), fun hc => absurd hc htol⟩,
      fun _ => herr, ?_⟩
    intro c hc
    rw [herr] at hc
    exact absurd hc (by simp)

/-- Witness for C1's amended theorem at the 1×1 matrix `[[1]]`. -/
theorem mk_ok_iff_within_tol_witness :
    mkMarkovChainDefault oneMat = .ok ⟨oneMat, List.range oneMat.n⟩ :=
  (mk_ok_iff_within_tol oneMat).1.mpr (by
    intro j hj
    rw [(by decide : oneMat.n = 1)] at hj
    interval_cases j
    rw [colSum, (by decide : List.range oneMat.m = [0])]
    simp only [List.map_cons, List.map_nil, List.sum_cons, List.sum_nil]
    norm_num [oneMat, npTol, npAtol, npRtol])

/-- C1 counterexample: the 1×1 matrix `[[1 + 5e-6]]` has its column sum
farther from 1 than the claimed absolute tolerance `npAtol ≈ 1e-8`, yet
construction succeeds instead of failing with `NotColumnStochastic`
(`np.allclose`'s real tolerance is `atol + rtol·|1| ≈ 1e-5`). -/
theorem mk_beyond_atol_accepted :
    npAtol < |colSum offMat 0 - 1| ∧
    mkMarkovChainDefault offMat = .ok ⟨offMat, [0]⟩ := by
  constructor
  · rw [offMat_colSum]
    rw [show (1 + 1 / 200000 : ℚ) - 1 = 1 / 200000 by norm_num]
    rw [abs_of_pos (by norm_num)]
    norm_num [npAtol]
  · have hr : List.range offMat.n = [0] := by decide
    simp [mkMarkovChainDefault, mkMarkovChain, offMat_allclose, hr]

/-- C8 counterexample: on a one-state chain, `walk` with the unknown label
`"Z"` and `N = 1` succeeds with `["Z"]` (the loop body never runs, so no
lookup happens), and `path("Z", "Z")` likewise succeeds — contrary to the
claim that every such call fails with `UnknownLabel`. -/
theorem unknown_label_cex :
    ("Z" ∉ oneChain.states) ∧
    oneChain.walk (fun _ => 0) "Z" 1 = .ok ["Z"] ∧
    oneChain.path (fun _ => 0) 5 "Z" "Z" = .ok ["Z"] := by
  refine ⟨by decide, rfl, ?_⟩
  exact pathAux_self oneChain (fun _ => 0) 5 0 "Z" ["Z"]

/-- C8 amended: for a label `x` absent from the chain's index map,
`transition(x)` fails with the `UnknownLabel` `KeyError`; `walk(x, N)` fails
the same way for every `N ≥ 2` but returns `[x]` without any lookup when
`N = 1`; and `path(x, y)` fails the same way when `x ≠ y` (and the loop runs
at least once), while the stop label is never looked up at all —
`path(x, x)` returns `[x]` without error. -/
theorem unknown_label_behavior {α : Type} [DecidableEq α] (c : MarkovChain α)
    (us : ℕ → ℚ) (u : ℚ) (x y : α) (N fuel : ℕ)
    (hx : statesIndexMap c.states c.A.n x = none) :
    c.transition u x = .error .unknownLabel ∧
    c.walk us x 1 = .ok [x] ∧
    (2 ≤ N → c.walk us x N = .error .unknownLabel) ∧
    (x ≠ y → 1 ≤ fuel → c.path us fuel x y = .err .unknownLabel) := by
  have htr : ∀ v, c.transition v x = .error .unknownLabel := by
    intro v
    simp [MarkovChain.transition, hx]
  refine ⟨htr u, rfl, ?_, ?_⟩
  · intro hN
    obtain ⟨m, rfl⟩ : ∃ m, N = m + 2 := ⟨N - 2, by omega⟩
    show c.walkAux us (m + 2 - 1) 0 x [x] = _
    rw [(by omega : m + 2 - 1 = m + 1)]
    rw [MarkovChain.walkAux, htr (us 0)]
  · intro hne hf
    obtain ⟨g, rfl⟩ : ∃ g, fuel = g + 1 := ⟨fuel - 1, by omega⟩
    show c.pathAux us (g + 1) 0 x y [x] = _
    rw [MarkovChain.pathAux, if_neg hne, htr (us 0)]

/-- Witness for C8's amended theorem on the one-state chain with the absent
label `"Z"`. -/
theorem unknown_label_behavior_witness :
    statesIndexMap oneChain.states oneChain.A.n "Z" = none ∧
    (oneChain.transition 0 "Z" = .error .unknownLabel ∧
     oneChain.walk (fun _ => 0) "Z" 1 = .ok ["Z"] ∧
     (2 ≤ 2 → oneChain.walk (fun _ => 0) "Z" 2 = .error .unknownLabel) ∧
     ("Z" ≠ "A" → 1 ≤ 1 →
       oneChain.path (fun _ => 0) 1 "Z" "A" = .err .unknownLabel)) :=
  ⟨by decide,
    unknown_label_behavior oneChain (fun _ => 0) 0 "Z" "A" 2 1 (by decide)⟩

/-- C2 counterexample: in the 2×2 identity chain, state 1 is absorbing
(column 1 is the identity column) and construction succeeds, yet
`path(0, 1)` never terminates: state 0 is itself absorbing, so every draw
keeps the walk at 0 and no amount of fuel makes the loop return. -/
theorem path_absorbing_cex :
    (∀ i < idMat2.m, idMat2.entry i 1 = if i = 1 then 1 else 0) ∧
    mkMarkovChainDefault idMat2 = .ok idChain2 ∧
    ¬ ∃ fuel l, idChain2.path (fun _ => 0) fuel 0 1 = .ok l := by
  refine ⟨fun i _ => rfl, ?_, ?_⟩
  · have hr : List.range idMat2.n = [0, 1] := by decide
    simp [mkMarkovChainDefault, mkMarkovChain, idMat2_allclose, idChain2, hr]
  · rintro ⟨fuel, l, hl⟩
    have hstuck := pathAux_idChain2_stuck 0 (by norm_num) (by norm_num)
      fuel 0 [0]
    rw [MarkovChain.path] at hl
    rw [hstuck] at hl
    exact absurd hl (by simp)

/-- C2 amended: whenever `path(start, stop)` does return a list, that list
begins with `start` and ends with `stop` (both endpoints inclusive, each
intermediate step a transition) — but termination itself is not guaranteed
by an absorbing stop state alone: it fails when `stop` is unreachable from
`start`, as `path_absorbing_cex` shows. -/
theorem path_ok_endpoints {α : Type} [DecidableEq α] (c : MarkovChain α)
    (us : ℕ → ℚ) (fuel : ℕ) (start stop : α) (l : List α)
    (h : c.path us fuel start stop = .ok l) :
    l.head? = some start ∧ l.getLast? = some stop := by
  have hends := pathAux_ok_ends c us fuel 0 start stop [start] l (by simp) h
  simpa using hends

/-- Witness for C2's amended theorem on a trivially terminating path. -/
theorem path_ok_endpoints_witness :
    idChain2.path (fun _ => 0) 0 0 0 = .ok [0] ∧
    (([0] : List ℕ).head? = some 0 ∧ ([0] : List ℕ).getLast? = some 0) :=
  ⟨rfl, path_ok_endpoints idChain2 (fun _ => 0) 0 0 0 [0] rfl⟩

/-- C3 counterexample: for the corpus `["$top a"]` — whose sentence contains
the literal sentinel token — the final normalized matrix has 4 states and
its STOP column (index 3) is `[0, 0, 1/2, 1/2]`: the self-transition is 1/2,
not 1, and a transition out of STOP survives with probability 1/2; the
forced override of the single cell `(3, 3)` did not discard it. -/
theorem stop_column_cex :
    (stateLabels badCorpus).length = 4 ∧
    (transMatrix badCorpus).entry 2 3 = 1 / 2 ∧
    (transMatrix badCorpus).entry 3 3 = 1 / 2 := by
  refine ⟨by decide, ?_, ?_⟩
  · rw [transMatrix_entry]
    norm_num [(by decide : countsVal badCorpus 2 3 = 1),
      (by decide : colCount badCorpus 3 = 2)]
  · rw [transMatrix_entry]
    norm_num [(by decide : countsVal badCorpus 3 3 = 1),
      (by decide : colCount badCorpus 3 = 2)]

/-- C3 amended: for every corpus whose sentences do not contain the literal
`"$top"` sentinel token, the STOP state is absorbing in the normalized
matrix: its column is the identity column (self-transition 1, every other
entry 0).  The forced override sets only the single cell `(STOP, STOP)` to 1
before normalization; under this hypothesis no transition out of STOP is
ever counted, so the rest of the column is zero anyway. -/
theorem stop_column_absorbing (sentences : List (List String))
    (h : ∀ s ∈ sentences, topLabel ∉ s) (i : ℕ) :
    (transMatrix sentences).entry i ((stateLabels sentences).length - 1)
      = if i = (stateLabels sentences).length - 1 then 1 else 0 := by
  have hraw : ∀ a, rawCounts (stateLabels sentences) sentences a
      ((stateLabels sentences).length - 1) = 0 := by
    intro a
    rw [rawCounts_apply]
    have hz : (allPairs sentences).countP
        (hitCell (stateLabels sentences) a
          ((stateLabels sentences).length - 1)) = 0 := by
      rw [List.countP_eq_zero]
      intro p hp
      obtain ⟨s, hs, hps⟩ := allPairs_mem hp
      have hfst_lab : p.1 ∈ stateLabels sentences :=
        framed_mem_labels hs (pairsOf_fst_mem hps)
      have hfst_ne : p.1 ≠ topLabel := framed_fst_ne_top (h s hs) hps
      have hidx := wordIdx_ne_last hfst_lab hfst_ne
      simp only [hitCell, decide_eq_true_eq]
      rintro ⟨-, hb⟩
      exact hidx hb.symm
    rw [hz]
    norm_num
  have hcnt : ∀ a, (countsMatrix sentences).entry a
      ((stateLabels sentences).length - 1)
      = if a = (stateLabels sentences).length - 1 then 1 else 0 := by
    intro a
    show withOverride (stateLabels sentences).length
      (rawCounts (stateLabels sentences) sentences) a _ = _
    unfold withOverride
    by_cases ha : a = (stateLabels sentences).length - 1
    · simp [ha]
    · rw [if_neg (fun hc => ha hc.1), if_neg ha]
      exact hraw a
  have hlen : 2 ≤ (stateLabels sentences).length := by
    rw [stateLabels]
    simp
  have hcol : colSum (countsMatrix sentences)
      ((stateLabels sentences).length - 1) = 1 := by
    rw [colSum, countsMatrix_m]
    rw [List.map_congr_left
      (fun i _ => hcnt i :
        ∀ i ∈ List.range (stateLabels sentences).length,
          (countsMatrix sentences).entry i ((stateLabels sentences).length - 1)
            = if i = (stateLabels sentences).length - 1 then 1 else 0)]
    rw [sum_range_single (stateLabels sentences).length
      ((stateLabels sentences).length - 1) (by omega) _
      (fun i _ hne => if_neg hne)]
    rw [if_pos rfl]
  show (countsMatrix sentences).entry i _ / colSum (countsMatrix sentences) _ = _
  rw [hcnt i, hcol, div_one]

/-- Witness for C3's amended theorem on the sentinel-free corpus `["a"]`:
its STOP column (index 2) has self-transition exactly 1. -/
theorem stop_column_absorbing_witness :
    (∀ s ∈ aCorpus, topLabel ∉ s) ∧
    (transMatrix aCorpus).entry 2 ((stateLabels aCorpus).length - 1) = 1 :=
  ⟨by decide, by
    have h := stop_column_absorbing aCorpus (by decide) 2
    simpa [(by decide : (stateLabels aCorpus).length = 3)] using h⟩

/-- C4: for any corpus and any two labels of the model, the raw count cell
`(index(next), index(current))` is exactly the number of occurrences of the
consecutive pair `(current, next)` across all `[START, t1, ..., tk, STOP]`
framed sentences; normalization divides every entry by its column's
pre-normalization sum; and on `["the cat sat", "the dog sat"]` there are 6
states and the normalized `"sat"` column's mass into STOP is exactly 1. -/
theorem raw_counts_pairs (sentences : List (List String)) (c nx : String)
    (hc : c ∈ stateLabels sentences) (hn : nx ∈ stateLabels sentences) :
    rawCounts (stateLabels sentences) sentences
        (wordIdx (stateLabels sentences) nx) (wordIdx (stateLabels sentences) c)
      = (pairCount sentences c nx : ℚ) ∧
    ((wordIdx (stateLabels sentences) nx ≠ (stateLabels sentences).length - 1 ∨
      wordIdx (stateLabels sentences) c ≠ (stateLabels sentences).length - 1) →
      (countsMatrix sentences).entry (wordIdx (stateLabels sentences) nx)
          (wordIdx (stateLabels sentences) c)
        = (pairCount sentences c nx : ℚ)) ∧
    (∀ a b, (transMatrix sentences).entry a b
      = withOverride (stateLabels sentences).length
          (rawCounts (stateLabels sentences) sentences) a b
        / colSum (countsMatrix sentences) b) ∧
    (stateLabels exCorpus).length = 6 ∧
    (transMatrix exCorpus).entry (wordIdx (stateLabels exCorpus) topLabel)
        (wordIdx (stateLabels exCorpus) "sat") = 1 := by
  have hmain : rawCounts (stateLabels sentences) sentences
        (wordIdx (stateLabels sentences) nx)
        (wordIdx (stateLabels sentences) c)
      = (pairCount sentences c nx : ℚ) := ?_
  · refine ⟨hmain, ?_, fun a b => rfl, by decide, ?_⟩
    · intro hor
      show withOverride (stateLabels sentences).length
        (rawCounts (stateLabels sentences) sentences) _ _ = _
      unfold withOverride
      rw [if_neg (fun hc => hor.elim (fun h => h hc.1) (fun h => h hc.2))]
      exact hmain
    · rw [(by decide : wordIdx (stateLabels exCorpus) topLabel = 5),
        (by decide : wordIdx (stateLabels exCorpus) "sat" = 4)]
      rw [transMatrix_entry]
      norm_num [(by decide : countsVal exCorpus 5 4 = 2),
        (by decide : colCount exCorpus 4 = 2)]
  · rw [rawCounts_apply]
    have hcount : (allPairs sentences).countP
          (hitCell (stateLabels sentences) (wordIdx (stateLabels sentences) nx)
            (wordIdx (stateLabels sentences) c))
        = pairCount sentences c nx := by
      show _ = (allPairs sentences).countP (· == (c, nx))
      apply List.countP_congr
      intro p hp
      obtain ⟨s, hs, hps⟩ := allPairs_mem hp
      have h1 : p.1 ∈ stateLabels sentences :=
        framed_mem_labels hs (pairsOf_fst_mem hps)
      have h2 : p.2 ∈ stateLabels sentences :=
        framed_mem_labels hs (pairsOf_snd_mem hps)
      simp only [hitCell, decide_eq_true_eq, beq_iff_eq]
      constructor
      · rintro ⟨ha, hb⟩
        have hsnd : p.2 = nx := wordIdx_inj h2 hn ha.symm
        have hfst : p.1 = c := wordIdx_inj h1 hc hb.symm
        rw [Prod.ext_iff]
        exact ⟨hfst, hsnd⟩
      · intro hp_eq
        rw [hp_eq]
        exact ⟨rfl, rfl⟩
    rw [hcount]

/-- Witness for C4 on the corpus `["a"]`: the cell
`(index($top), index(a))` counts the single `(a, $top)` pair. -/
theorem raw_counts_pairs_witness :
    ("a" ∈ stateLabels aCorpus) ∧ (topLabel ∈ stateLabels aCorpus) ∧
    rawCounts (stateLabels aCorpus) aCorpus
        (wordIdx (stateLabels aCorpus) topLabel)
        (wordIdx (stateLabels aCorpus) "a")
      = (pairCount aCorpus "a" topLabel : ℚ) :=
  ⟨by decide, by decide,
    (raw_counts_pairs aCorpus "a" topLabel (by decide) (by decide)).1⟩

/-- C5: `babble` removes the first occurrence of each sentinel from the
returned path, joins with single spaces and strips; on the corpus
`["hello world"]` the built chain is deterministic, so for every uniform
draw stream (and enough fuel for the three loop iterations of the source's
unbounded `while`) the result is exactly `"hello world"`. -/
theorem babble_hello_world (us : ℕ → ℚ) (hus : ∀ k, 0 ≤ us k ∧ us k < 1)
    (fuel : ℕ) (hf : 3 ≤ fuel) :
    babble hwCorpus us fuel = some "hello world" := by
  have hp := hw_path us hus fuel hf
  simp only [babble, hw_mk, hp]
  decide

/-- Witness for C5 with the constant-zero draw stream and fuel 3. -/
theorem babble_hello_world_witness :
    (∀ _k : ℕ, 0 ≤ (0 : ℚ) ∧ (0 : ℚ) < 1) ∧
    babble hwCorpus (fun _ => 0) 3 = some "hello world" :=
  ⟨fun _ => ⟨le_refl 0, by norm_num⟩,
    babble_hello_world (fun _ => 0) (fun _ => ⟨le_refl 0, by norm_num⟩) 3
      (by norm_num)⟩

end MarkovSpeech
